import Mathlib

/-!
Verification development for the batch background-filter pipeline of
demos/notebooks/demo_Ring_CNN.ipynb (cell 19: the batch filtering loop,
cell 20: memory-mapped composite construction and readback).

Arrays are embedded as shape + flat data in C (row-major) order, with the
numpy operations used by the loop (expand_dims, squeeze, broadcasting
subtraction, elementwise maximum with 0) translated from their numpy
semantics.  Pixel intensities are modelled as rationals.
-/

set_option maxHeartbeats 1000000
set_option maxRecDepth 10000

/-- A numpy ndarray: a shape and flat data in C (row-major) order. -/
structure NDArray where
  shape : List Nat
  data : List ℚ
deriving DecidableEq

/-- Ravel a multi-index into a flat C-order index. -/
def ravelIdx : List Nat → List Nat → Nat
  | _ :: ds, i :: is => i * ds.prod + ravelIdx ds is
  | _, _ => 0

/-- Unravel a flat C-order index into a multi-index. -/
def unravel : List Nat → Nat → List Nat
  | [], _ => []
  | _ :: ds, k => (k / ds.prod) :: unravel ds (k % ds.prod)

/-- Unravel a flat F-order (column-major) index into a multi-index. -/
def unravelF : List Nat → Nat → List Nat
  | [], _ => []
  | d :: ds, k => (k % d) :: unravelF ds (k / d)

/-- Ravel a multi-index into a flat F-order (column-major) index. -/
def ravelF : List Nat → List Nat → Nat
  | d :: ds, i :: is => i + d * ravelF ds is
  | _, _ => 0

/-- Read an array at a multi-index (C order). -/
def ndGet (a : NDArray) (idx : List Nat) : ℚ :=
  a.data.getD (ravelIdx a.shape idx) 0

/-- Broadcast-aware read: numpy semantics for indexing one operand of a
broadcast binary operation by a multi-index of the (possibly larger)
result shape.  Missing leading axes and axes of extent 1 are pinned to 0. -/
def bGet (a : NDArray) (idx : List Nat) : ℚ :=
  let idx2 := idx.drop (idx.length - a.shape.length)
  let idx3 := List.zipWith (fun d i => if d = 1 then 0 else i) a.shape idx2
  a.data.getD (ravelIdx a.shape idx3) 0

/-- Combine two reversed shapes according to the numpy broadcasting rule. -/
def bcastRev : List Nat → List Nat → Option (List Nat)
  | [], s => some s
  | s, [] => some s
  | a :: as, b :: bs =>
    match bcastRev as bs with
    | none => none
    | some rest =>
      if a = b then some (a :: rest)
      else if a = 1 then some (b :: rest)
      else if b = 1 then some (a :: rest)
      else none

/-- The numpy broadcast of two shapes, or none if they are incompatible. -/
def broadcastShape (s1 s2 : List Nat) : Option (List Nat) :=
  (bcastRev s1.reverse s2.reverse).map List.reverse

/-- images - images_filt: elementwise subtraction with numpy broadcasting;
none when the shapes are incompatible (numpy raises). -/
def npSub (a b : NDArray) : Option NDArray :=
  (broadcastShape a.shape b.shape).map fun s =>
    ⟨s, (List.range s.prod).map fun k =>
        bGet a (unravel s k) - bGet b (unravel s k)⟩

/-- np.maximum(x, 0): elementwise clamp at zero, shape preserved. -/
def npMax0 (a : NDArray) : NDArray :=
  ⟨a.shape, a.data.map fun x => max x 0⟩

/-- np.expand_dims(x, axis=-1): append a trailing axis of extent 1. -/
def npExpandLast (a : NDArray) : NDArray :=
  ⟨a.shape ++ [1], a.data⟩

/-- np.squeeze(x): drop every axis of extent 1 (flat C-order data is
unchanged by removing unit axes). -/
def npSqueeze (a : NDArray) : NDArray :=
  ⟨a.shape.filter (fun d => d ≠ 1), a.data⟩

/-- cm.load(fnames, subindices=slice(a, b)) on a movie with T frames of
rows x cols pixels: the frames with indices in [a, min(b, T)) as a
(len, rows, cols) array in C order.  The movie source is a function from
(frame, row, col) to intensity. -/
def loadSlice (source : Nat → Nat → Nat → ℚ) (rows cols T a b : Nat) : NDArray :=
  let len := min (b - a) (T - a)
  ⟨[len, rows, cols],
   (List.range (len * (rows * cols))).map fun k =>
     source (a + k / (rows * cols)) (k / cols % rows) (k % cols)⟩

/-- Python range(i, stop, step) for a positive step, with explicit fuel
(the fuel stop - i bounds the number of iterations). -/
def pyRangeFromAux : Nat → Nat → Nat → Nat → List Nat
  | 0, _, _, _ => []
  | fuel + 1, i, stop, step =>
    if i < stop then i :: pyRangeFromAux fuel (i + step) stop step else []

/-- Python range(i, stop, step) for a positive step. -/
def pyRangeFrom (i stop step : Nat) : List Nat :=
  pyRangeFromAux (stop - i) i stop step

/-- Decimal digit character. -/
def digitChar (d : Nat) : Char := Char.ofNat (48 + d)

/-- Decimal digits of a natural number, with fuel (the fuel bounds the
number of digits; n + 1 always suffices). -/
def natDigitsAux : Nat → Nat → List Char
  | 0, _ => []
  | fuel + 1, n =>
    if n < 10 then [digitChar n]
    else natDigitsAux fuel (n / 10) ++ [digitChar (n % 10)]

/-- Decimal digits of a natural number, most significant first. -/
def natDigits (n : Nat) : List Char := natDigitsAux (n + 1) n

/-- format(i, '05d'): zero-pad the decimal representation to width 5
(wider numbers are left untouched). -/
def format05 (n : Nat) : List Char :=
  List.replicate (5 - (natDigits n).length) '0' ++ natDigits n

/-- os.path.join(dir, 'pfc_back_removed_' + format(i, '05d') + '.h5'). -/
def batchFileName (dir : List Char) (i : Nat) : List Char :=
  dir ++ ('/' :: ("pfc_back_removed_".toList ++ format05 i ++ ".h5".toList))

/-- Strict lexicographic comparison of character lists by code point. -/
def lexLt : List Char → List Char → Bool
  | [], [] => false
  | [], _ :: _ => true
  | _ :: _, [] => false
  | a :: as, b :: bs =>
    if a.toNat < b.toNat then true
    else if a.toNat = b.toNat then lexLt as bs
    else false

/-- External collaborators of the batch loop: the movie loader (can fail:
SourceReadError), the background model's predict call (can fail:
ModelInferenceError), and whether persisting a given file succeeds
(PersistenceError). -/
structure Collab where
  T : Nat
  load : Nat → Nat → Option NDArray
  predict : NDArray → Option NDArray
  saveOk : List Char → Bool

/-- Result of processing one batch.  A failure before the path is recorded
(load or predict raising) is distinguished from a failure after it
(subtraction broadcast error or persistence failure), because the source
appends to saved_files between the two. -/
inductive BatchResult where
  | ok (file : List Char) (arr : NDArray)
  | earlyFail
  | lateFail (file : List Char)
deriving DecidableEq

/-- Whether a batch result is a success. -/
def BatchResult.isOkB : BatchResult → Bool
  | .ok _ _ => true
  | _ => false

/-- One iteration of the cell-19 loop body for start index i, minus the
mutation of saved_files / the directory:
  images      = cm.load(fnames, subindices=slice(i, i + batch_length))
  images_filt = np.squeeze(model_LN.predict(np.expand_dims(images, -1)))
  temp_file   = os.path.join(dir, 'pfc_back_removed_' + format(i,'05d') + '.h5')
  saved_files.append(temp_file)
  m           = cm.movie(np.maximum(images - images_filt, 0))
  m.save(temp_file) -/
def processBatch (C : Collab) (dir : List Char) (batch_length i : Nat) : BatchResult :=
  match C.load i (i + batch_length) with
  | none => .earlyFail
  | some images =>
    match C.predict (npExpandLast images) with
    | none => .earlyFail
    | some pred =>
      let images_filt := npSqueeze pred
      let temp_file := batchFileName dir i
      match npSub images images_filt with
      | none => .lateFail temp_file
      | some diff =>
        if C.saveOk temp_file then .ok temp_file (npMax0 diff)
        else .lateFail temp_file

/-- Mutable state of the loop: the recorded paths (saved_files) and the
files actually persisted to the output directory, in creation order. -/
structure RunState where
  saved_files : List (List Char)
  disk : List (List Char × NDArray)
deriving DecidableEq

/-- Outcome of a run: completion, or a fail-fast abort at a batch start
index with the state reached so far. -/
inductive RunOutcome where
  | ok (s : RunState)
  | failed (i : Nat) (s : RunState)
deriving DecidableEq

/-- Process one batch, updating the state.  The path is appended to
saved_files before the subtraction and the save are attempted, exactly as
in the source. -/
def runBatch (C : Collab) (dir : List Char) (batch_length : Nat)
    (s : RunState) (i : Nat) : RunOutcome :=
  match processBatch C dir batch_length i with
  | .ok f a => .ok ⟨s.saved_files ++ [f], s.disk ++ [(f, a)]⟩
  | .earlyFail => .failed i s
  | .lateFail f => .failed i ⟨s.saved_files ++ [f], s.disk⟩

/-- The loop over batch start indices; aborts on the first failure
(an exception propagates out of the cell, so no later batch runs). -/
def runFrom (C : Collab) (dir : List Char) (batch_length : Nat)
    (s : RunState) : List Nat → RunOutcome
  | [] => .ok s
  | i :: rest =>
    match runBatch C dir batch_length s i with
    | .ok s2 => runFrom C dir batch_length s2 rest
    | .failed j s2 => .failed j s2

/-- The whole cell-19 loop: for i in range(0, T, batch_length). -/
def runPipeline (C : Collab) (dir : List Char) (batch_length : Nat) : RunOutcome :=
  runFrom C dir batch_length ⟨[], []⟩ (pyRangeFrom 0 C.T batch_length)

/-- Recorded saved_files of an outcome (also after an abort). -/
def savedOf : RunOutcome → List (List Char)
  | .ok s => s.saved_files
  | .failed _ s => s.saved_files

/-- Files persisted to the output directory by an outcome. -/
def diskOf : RunOutcome → List (List Char × NDArray)
  | .ok s => s.disk
  | .failed _ s => s.disk

/-- The persisted arrays, in creation order. -/
def diskArrays (o : RunOutcome) : List NDArray := (diskOf o).map Prod.snd

/-- The persisted file names, in creation order. -/
def diskNames (o : RunOutcome) : List (List Char) := (diskOf o).map Prod.fst

/-- Whether the run completed. -/
def RunOutcome.isOkR : RunOutcome → Bool
  | .ok _ => true
  | .failed _ _ => false

/-- The failing batch start index reported by an aborted run. -/
def failIndexOf : RunOutcome → Option Nat
  | .ok _ => none
  | .failed i _ => some i

/-- Collaborators for a run in which reading, inference, and persistence
all behave: the loader returns the requested slice of the source movie,
predict applies a total background model, and every save succeeds. -/
def pureCollab (source : Nat → Nat → Nat → ℚ) (model : NDArray → NDArray)
    (rows cols T : Nat) : Collab :=
  ⟨T, fun a b => some (loadSlice source rows cols T a b),
   fun a => some (model a), fun _ => true⟩

/-- The slice loaded for the batch starting at i. -/
def loadBatch (source : Nat → Nat → Nat → ℚ) (rows cols T batch_length i : Nat) : NDArray :=
  loadSlice source rows cols T i (i + batch_length)

/-- images_filt: the squeezed output of the background model on the batch
with a trailing channel axis appended. -/
def filtOf (model : NDArray → NDArray) (images : NDArray) : NDArray :=
  npSqueeze (model (npExpandLast images))

/-- The array persisted for the batch starting at i in a pure run:
np.maximum(images - images_filt, 0). -/
def batchOut (source : Nat → Nat → Nat → ℚ) (model : NDArray → NDArray)
    (rows cols T batch_length i : Nat) : NDArray :=
  let images := loadBatch source rows cols T batch_length i
  npMax0 ((npSub images (filtOf model images)).getD ⟨[], []⟩)

/-- Number of frames held by a persisted batch file (leading axis). -/
def frameCount (a : NDArray) : Nat := a.shape.headD 0

/-! ### List and index arithmetic helpers -/

theorem getD_range_map {α : Type} (f : Nat → α) (n k : Nat) (d : α) (h : k < n) :
    ((List.range n).map f).getD k d = f k := by
  rw [List.getD_eq_getElem?_getD, List.getElem?_map, List.getElem?_range h]
  rfl

theorem ravelIdx_triple (L r c t i j : Nat) :
    ravelIdx [L, r, c] [t, i, j] = (r * c) * t + (c * i + j) := by
  simp [ravelIdx, List.prod_cons, List.prod_nil]
  ring

theorem inner_lt (r c i j : Nat) (hi : i < r) (hj : j < c) : c * i + j < r * c := by
  have h1 : c * (i + 1) = c * i + c := by ring
  have h2 : c * (i + 1) ≤ c * r := Nat.mul_le_mul_left c hi
  have h3 : c * r = r * c := Nat.mul_comm c r
  omega

theorem unravel_triple (L r c t i j : Nat) (hi : i < r) (hj : j < c) :
    unravel [L, r, c] ((r * c) * t + (c * i + j)) = [t, i, j] := by
  have hc : 0 < c := Nat.lt_of_le_of_lt (Nat.zero_le j) hj
  have hr : 0 < r := Nat.lt_of_le_of_lt (Nat.zero_le i) hi
  have hrc : 0 < r * c := Nat.mul_pos hr hc
  have hm : c * i + j < r * c := inner_lt r c i j hi hj
  simp only [unravel, List.prod_cons, List.prod_nil, Nat.mul_one, Nat.div_one,
    Nat.mod_one]
  rw [Nat.mul_add_div hrc, Nat.div_eq_of_lt hm, Nat.mul_add_mod,
    Nat.mod_eq_of_lt hm, Nat.mul_add_div hc, Nat.div_eq_of_lt hj,
    Nat.mul_add_mod, Nat.mod_eq_of_lt hj]
  simp

theorem unravel_ravel_triple (L r c t i j : Nat) (hi : i < r) (hj : j < c) :
    unravel [L, r, c] (ravelIdx [L, r, c] [t, i, j]) = [t, i, j] := by
  rw [ravelIdx_triple, unravel_triple L r c t i j hi hj]

theorem triple_idx_lt (L r c t i j : Nat) (ht : t < L) (hi : i < r) (hj : j < c) :
    (r * c) * t + (c * i + j) < L * (r * c) := by
  have hm : c * i + j < r * c := inner_lt r c i j hi hj
  have h1 : (r * c) * (t + 1) = (r * c) * t + r * c := by ring
  have h2 : (r * c) * (t + 1) ≤ (r * c) * L := Nat.mul_le_mul_left _ ht
  have h3 : (r * c) * L = L * (r * c) := Nat.mul_comm _ _
  omega

/-! ### Properties of the batch start indices range(0, T, batch_length) -/

theorem pyRangeFromAux_of_le (f i stop step : Nat) (h : stop ≤ i) :
    pyRangeFromAux f i stop step = [] := by
  cases f with
  | zero => rfl
  | succ f => simp [pyRangeFromAux, Nat.not_lt.mpr h]

theorem pyRangeFromAux_length (step : Nat) (hs : 0 < step) :
    ∀ f i stop, stop - i ≤ f →
      (pyRangeFromAux f i stop step).length = (stop - i + step - 1) / step := by
  intro f
  induction f with
  | zero =>
    intro i stop hf
    have h : stop ≤ i := by omega
    rw [pyRangeFromAux_of_le 0 i stop step h]
    have : stop - i = 0 := by omega
    rw [this]
    simp
    exact (Nat.div_eq_of_lt (by omega)).symm
  | succ f ih =>
    intro i stop hf
    by_cases h : i < stop
    · simp only [pyRangeFromAux, if_pos h, List.length_cons]
      rw [ih (i + step) stop (by omega)]
      by_cases hms : stop - i ≤ step
      · have h1 : stop - (i + step) = 0 := by omega
        rw [h1]
        have h2 : (0 + step - 1) / step = 0 := Nat.div_eq_of_lt (by omega)
        rw [h2]
        have h3 : stop - i + step - 1 = (stop - i - 1) + step := by omega
        rw [h3, Nat.add_div_right _ hs]
        have h4 : (stop - i - 1) / step = 0 := Nat.div_eq_of_lt (by omega)
        omega
      · have h1 : stop - (i + step) + step - 1 = (stop - i - 1 - step) + step := by
          omega
        have h2 : stop - i + step - 1 = (stop - i - 1 - step) + step + step := by
          omega
        rw [h1, h2, Nat.add_div_right _ hs, Nat.add_div_right _ hs,
          Nat.add_div_right _ hs]
    · rw [pyRangeFromAux_of_le _ _ _ _ (by omega)]
      have : stop - i = 0 := by omega
      rw [this]
      simp
      exact (Nat.div_eq_of_lt (by omega)).symm

theorem pyRangeFrom_length (T step : Nat) (hs : 0 < step) :
    (pyRangeFrom 0 T step).length = (T + step - 1) / step := by
  have := pyRangeFromAux_length step hs (T - 0) 0 T (by omega)
  simpa using this

theorem pyRangeFromAux_sum (step : Nat) (hs : 0 < step) :
    ∀ f i stop, stop - i ≤ f →
      ((pyRangeFromAux f i stop step).map (fun x => min step (stop - x))).sum
        = stop - i := by
  intro f
  induction f with
  | zero =>
    intro i stop hf
    rw [pyRangeFromAux_of_le 0 i stop step (by omega)]
    simp
    omega
  | succ f ih =>
    intro i stop hf
    by_cases h : i < stop
    · simp only [pyRangeFromAux, if_pos h, List.map_cons, List.sum_cons]
      rw [ih (i + step) stop (by omega)]
      omega
    · rw [pyRangeFromAux_of_le _ _ _ _ (by omega)]
      simp
      omega

theorem pyRangeFromAux_mem (step : Nat) :
    ∀ f i stop x, x ∈ pyRangeFromAux f i stop step → i ≤ x ∧ x < stop := by
  intro f
  induction f with
  | zero => intro i stop x hx; simp [pyRangeFromAux] at hx
  | succ f ih =>
    intro i stop x hx
    by_cases h : i < stop
    · simp only [pyRangeFromAux, if_pos h, List.mem_cons] at hx
      rcases hx with rfl | hx
      · omega
      · have := ih (i + step) stop x hx
        omega
    · rw [pyRangeFromAux_of_le _ _ _ _ (by omega)] at hx
      simp at hx

theorem pyRangeFrom_mem (T step x : Nat) (hx : x ∈ pyRangeFrom 0 T step) : x < T :=
  (pyRangeFromAux_mem step (T - 0) 0 T x hx).2

theorem pyRangeFromAux_pairwise (step : Nat) (hs : 0 < step) :
    ∀ f i stop, List.Pairwise (· < ·) (pyRangeFromAux f i stop step) := by
  intro f
  induction f with
  | zero => intro i stop; simp [pyRangeFromAux]
  | succ f ih =>
    intro i stop
    by_cases h : i < stop
    · simp only [pyRangeFromAux, if_pos h]
      refine List.Pairwise.cons ?_ (ih (i + step) stop)
      intro x hx
      have := pyRangeFromAux_mem step f (i + step) stop x hx
      omega
    · rw [pyRangeFromAux_of_le _ _ _ _ (by omega)]
      simp

theorem pyRangeFrom_pairwise (T step : Nat) (hs : 0 < step) :
    List.Pairwise (· < ·) (pyRangeFrom 0 T step) :=
  pyRangeFromAux_pairwise step hs (T - 0) 0 T

theorem pyRangeFromAux_ne_nil (f i stop step : Nat) (h : i < stop) (hf : 0 < f) :
    pyRangeFromAux f i stop step ≠ [] := by
  cases f with
  | zero => omega
  | succ f => simp [pyRangeFromAux, h]

theorem getLast?_cons_of_ne_nil {α : Type} (a : α) (l : List α) (h : l ≠ []) :
    (a :: l).getLast? = l.getLast? := by
  cases l with
  | nil => exact absurd rfl h
  | cons b bs => exact List.getLast?_cons_cons

theorem pyRangeFromAux_last_size (step : Nat) (hs : 0 < step) :
    ∀ f i stop, i < stop → stop - i ≤ f →
      ((pyRangeFromAux f i stop step).map (fun x => min step (stop - x))).getLast?
        = some (if (stop - i) % step = 0 then step else (stop - i) % step) := by
  intro f
  induction f with
  | zero => intro i stop h hf; omega
  | succ f ih =>
    intro i stop h hf
    simp only [pyRangeFromAux, if_pos h, List.map_cons]
    by_cases h2 : i + step < stop
    · have hne : pyRangeFromAux f (i + step) stop step ≠ [] :=
        pyRangeFromAux_ne_nil f (i + step) stop step h2 (by omega)
      have hmapne : (pyRangeFromAux f (i + step) stop step).map
          (fun x => min step (stop - x)) ≠ [] := by
        intro hcon
        exact hne (List.map_eq_nil_iff.mp hcon)
      rw [getLast?_cons_of_ne_nil _ _ hmapne, ih (i + step) stop h2 (by omega)]
      have hsub : stop - (i + step) = stop - i - step := by omega
      have hmod : (stop - i) % step = (stop - i - step) % step :=
        Nat.mod_eq_sub_mod (by omega)
      rw [hsub, ← hmod]
    · rw [pyRangeFromAux_of_le _ _ _ _ (by omega)]
      simp only [List.map_nil, List.getLast?_singleton, Option.some.injEq]
      by_cases h3 : stop - i = step
      · rw [h3]
        simp [Nat.mod_self]
      · have hlt : stop - i < step := by omega
        rw [Nat.mod_eq_of_lt hlt, if_neg (by omega)]
        omega

theorem pyRangeFrom_last_size (T step : Nat) (hs : 0 < step) (hT : 0 < T) :
    ((pyRangeFrom 0 T step).map (fun x => min step (T - x))).getLast?
      = some (if T % step = 0 then step else T % step) := by
  have := pyRangeFromAux_last_size step hs (T - 0) 0 T (by omega) (by omega)
  simpa using this

/-! ### Shapes through the loop body for a well-formed movie -/

theorem clamp_eq (d x : Nat) (h : x < d) : (if d = 1 then 0 else x) = x := by
  by_cases hd : d = 1
  · subst hd
    rw [if_pos rfl]
    omega
  · rw [if_neg hd]

theorem broadcast_same3 (L r c : Nat) :
    broadcastShape [L, r, c] [L, r, c] = some [L, r, c] := by
  simp [broadcastShape, bcastRev]

theorem broadcast_one3 (r c : Nat) :
    broadcastShape [1, r, c] [r, c] = some [1, r, c] := by
  simp [broadcastShape, bcastRev]

theorem loadBatch_shape (source : Nat → Nat → Nat → ℚ) (r c T bl i : Nat) :
    (loadBatch source r c T bl i).shape = [min bl (T - i), r, c] := by
  simp [loadBatch, loadSlice, Nat.add_sub_cancel_left]

theorem loadBatch_data_length (source : Nat → Nat → Nat → ℚ) (r c T bl i : Nat) :
    (loadBatch source r c T bl i).data.length = min bl (T - i) * (r * c) := by
  simp [loadBatch, loadSlice, Nat.add_sub_cancel_left]

theorem filtOf_shape (model : NDArray → NDArray)
    (hm : ∀ a, (model a).shape = a.shape) (images : NDArray) (L r c : Nat)
    (himg : images.shape = [L, r, c]) (hr : 2 ≤ r) (hc : 2 ≤ c) :
    (filtOf model images).shape = if L = 1 then [r, c] else [L, r, c] := by
  have hr1 : ¬(r = 1) := by omega
  have hc1 : ¬(c = 1) := by omega
  by_cases hL : L = 1
  · simp [filtOf, npSqueeze, npExpandLast, hm, himg, hL, hr1, hc1]
  · simp [filtOf, npSqueeze, npExpandLast, hm, himg, hL, hr1, hc1]

theorem npSub_eq (a b : NDArray) (s : List Nat)
    (hbc : broadcastShape a.shape b.shape = some s) :
    npSub a b = some ⟨s, (List.range s.prod).map fun k =>
      bGet a (unravel s k) - bGet b (unravel s k)⟩ := by
  simp [npSub, hbc]

theorem npSub_batch (images filt : NDArray) (L r c : Nat)
    (h1 : images.shape = [L, r, c])
    (h2 : filt.shape = if L = 1 then [r, c] else [L, r, c]) :
    npSub images filt = some ⟨[L, r, c],
      (List.range ([L, r, c]).prod).map fun k =>
        bGet images (unravel [L, r, c] k) - bGet filt (unravel [L, r, c] k)⟩ := by
  by_cases hL : L = 1
  · rw [hL] at h2 ⊢
    rw [if_pos rfl] at h2
    exact npSub_eq images filt [1, r, c] (by rw [h1, h2, hL]; exact broadcast_one3 r c)
  · rw [if_neg hL] at h2
    exact npSub_eq images filt [L, r, c] (by rw [h1, h2]; exact broadcast_same3 L r c)

/-! ### Values through the loop body -/

theorem decode_first (r c t i j : Nat) (hi : i < r) (hj : j < c) :
    ((r * c) * t + (c * i + j)) / (r * c) = t := by
  have hrc : 0 < r * c := by
    have := Nat.mul_pos (show 0 < r by omega) (show 0 < c by omega)
    omega
  rw [Nat.mul_add_div hrc, Nat.div_eq_of_lt (inner_lt r c i j hi hj)]
  omega

theorem decode_mid (r c t i j : Nat) (hi : i < r) (hj : j < c) :
    ((r * c) * t + (c * i + j)) / c % r = i := by
  have hc : 0 < c := by omega
  have hk : (r * c) * t + (c * i + j) = c * (r * t + i) + j := by ring
  rw [hk, Nat.mul_add_div hc, Nat.div_eq_of_lt hj, Nat.add_zero, Nat.mul_add_mod,
    Nat.mod_eq_of_lt hi]

theorem decode_last (r c t i j : Nat) (hi : i < r) (hj : j < c) :
    ((r * c) * t + (c * i + j)) % c = j := by
  have hk : (r * c) * t + (c * i + j) = c * (r * t + i) + j := by ring
  rw [hk, Nat.mul_add_mod, Nat.mod_eq_of_lt hj]

theorem bGet_shape3 (a : NDArray) (L r c t i j : Nat)
    (hsh : a.shape = [L, r, c]) (ht : t < L) (hi : i < r) (hj : j < c) :
    bGet a [t, i, j] = a.data.getD ((r * c) * t + (c * i + j)) 0 := by
  simp only [bGet, hsh]
  have e1 : (if L = 1 then 0 else t) = t := clamp_eq L t ht
  have e2 : (if r = 1 then 0 else i) = i := clamp_eq r i hi
  have e3 : (if c = 1 then 0 else j) = j := clamp_eq c j hj
  simp only [List.length_cons, List.length_nil, List.zipWith, List.drop,
    Nat.sub_self, e1, e2, e3]
  rw [ravelIdx_triple]

theorem loadBatch_getD (source : Nat → Nat → Nat → ℚ) (r c T bl i t x y : Nat)
    (ht : t < min bl (T - i)) (hx : x < r) (hy : y < c) :
    (loadBatch source r c T bl i).data.getD ((r * c) * t + (c * x + y)) 0
      = source (i + t) x y := by
  simp only [loadBatch, loadSlice, Nat.add_sub_cancel_left]
  rw [getD_range_map _ _ _ _ (triple_idx_lt _ r c t x y ht hx hy)]
  rw [decode_first r c t x y hx hy, decode_mid r c t x y hx hy,
    decode_last r c t x y hx hy]

theorem bGet_loadBatch (source : Nat → Nat → Nat → ℚ) (r c T bl i t x y : Nat)
    (ht : t < min bl (T - i)) (hx : x < r) (hy : y < c) :
    bGet (loadBatch source r c T bl i) [t, x, y] = source (i + t) x y := by
  rw [bGet_shape3 _ (min bl (T - i)) r c t x y (loadBatch_shape source r c T bl i)
    ht hx hy]
  exact loadBatch_getD source r c T bl i t x y ht hx hy

theorem getD_map_max0 (l : List ℚ) (n : Nat) :
    (l.map fun x => max x 0).getD n 0 = max (l.getD n 0) 0 := by
  rw [List.getD_eq_getElem?_getD, List.getD_eq_getElem?_getD, List.getElem?_map]
  cases h : l[n]? with
  | none => simp
  | some x => simp

/-- The filtered array persisted for the batch starting at i: its shape. -/
theorem batchOut_shape (source : Nat → Nat → Nat → ℚ) (model : NDArray → NDArray)
    (r c T bl i : Nat) (hm : ∀ a, (model a).shape = a.shape)
    (hr : 2 ≤ r) (hc : 2 ≤ c) :
    (batchOut source model r c T bl i).shape = [min bl (T - i), r, c] := by
  have hsub := npSub_batch (loadBatch source r c T bl i)
    (filtOf model (loadBatch source r c T bl i)) (min bl (T - i)) r c
    (loadBatch_shape source r c T bl i)
    (filtOf_shape model hm _ _ r c (loadBatch_shape source r c T bl i) hr hc)
  simp [batchOut, hsub, npMax0]

theorem batchOut_data_length (source : Nat → Nat → Nat → ℚ)
    (model : NDArray → NDArray) (r c T bl i : Nat)
    (hm : ∀ a, (model a).shape = a.shape) (hr : 2 ≤ r) (hc : 2 ≤ c) :
    (batchOut source model r c T bl i).data.length = min bl (T - i) * (r * c) := by
  have hsub := npSub_batch (loadBatch source r c T bl i)
    (filtOf model (loadBatch source r c T bl i)) (min bl (T - i)) r c
    (loadBatch_shape source r c T bl i)
    (filtOf_shape model hm _ _ r c (loadBatch_shape source r c T bl i) hr hc)
  simp [batchOut, hsub, npMax0, List.prod_cons, List.prod_nil]

/-- Every value of a persisted batch is the clamp of something at 0, hence
nonnegative. -/
theorem batchOut_nonneg (source : Nat → Nat → Nat → ℚ) (model : NDArray → NDArray)
    (r c T bl i : Nat) (x : ℚ) (hx : x ∈ (batchOut source model r c T bl i).data) :
    0 ≤ x := by
  simp only [batchOut, npMax0, List.mem_map] at hx
  obtain ⟨y, _, rfl⟩ := hx
  exact le_max_right y 0

/-- Elementwise characterization of the persisted batch: at every valid
(frame, row, col) index it is max(original - estimated_background, 0),
with the original read from the source movie and the background read from
the squeezed model output under numpy broadcasting. -/
theorem batchOut_value (source : Nat → Nat → Nat → ℚ) (model : NDArray → NDArray)
    (r c T bl i t x y : Nat) (hm : ∀ a, (model a).shape = a.shape)
    (hr : 2 ≤ r) (hc : 2 ≤ c)
    (ht : t < min bl (T - i)) (hx : x < r) (hy : y < c) :
    (batchOut source model r c T bl i).data.getD
        (ravelIdx [min bl (T - i), r, c] [t, x, y]) 0
      = max (source (i + t) x y
          - bGet (filtOf model (loadBatch source r c T bl i)) [t, x, y]) 0 := by
  have hsub := npSub_batch (loadBatch source r c T bl i)
    (filtOf model (loadBatch source r c T bl i)) (min bl (T - i)) r c
    (loadBatch_shape source r c T bl i)
    (filtOf_shape model hm _ _ r c (loadBatch_shape source r c T bl i) hr hc)
  simp only [batchOut, hsub, Option.getD_some, npMax0]
  rw [getD_map_max0, ravelIdx_triple]
  have hprod : ([min bl (T - i), r, c]).prod = min bl (T - i) * (r * c) := by
    simp [List.prod_cons, List.prod_nil]
  rw [hprod, getD_range_map _ _ _ _ (triple_idx_lt _ r c t x y ht hx hy),
    unravel_triple _ r c t x y hx hy,
    bGet_loadBatch source r c T bl i t x y ht hx hy]

/-! ### The loop on a well-formed movie with total collaborators -/

theorem processBatch_pure (source : Nat → Nat → Nat → ℚ) (model : NDArray → NDArray)
    (r c T bl i : Nat) (d : List Char)
    (hm : ∀ a, (model a).shape = a.shape) (hr : 2 ≤ r) (hc : 2 ≤ c)
    (hi : i < T) :
    processBatch (pureCollab source model r c T) d bl i =
      .ok (batchFileName d i) (batchOut source model r c T bl i) := by
  have hsub := npSub_batch (loadBatch source r c T bl i)
    (filtOf model (loadBatch source r c T bl i)) (min bl (T - i)) r c
    (loadBatch_shape source r c T bl i)
    (filtOf_shape model hm _ _ r c (loadBatch_shape source r c T bl i) hr hc)
  simp only [loadBatch, filtOf] at hsub
  simp only [processBatch, pureCollab, batchOut, loadBatch, filtOf, hsub,
    Option.getD_some]
  simp

theorem runFrom_pure (source : Nat → Nat → Nat → ℚ) (model : NDArray → NDArray)
    (r c T bl : Nat) (d : List Char)
    (hm : ∀ a, (model a).shape = a.shape) (hr : 2 ≤ r) (hc : 2 ≤ c) :
    ∀ (starts : List Nat) (s : RunState), (∀ i ∈ starts, i < T) →
      runFrom (pureCollab source model r c T) d bl s starts =
        .ok ⟨s.saved_files ++ starts.map (batchFileName d),
             s.disk ++ starts.map (fun i =>
               (batchFileName d i, batchOut source model r c T bl i))⟩ := by
  intro starts
  induction starts with
  | nil => intro s h; simp [runFrom]
  | cons i rest ih =>
    intro s h
    have hi : i < T := h i (List.mem_cons_self i rest)
    simp only [runFrom, runBatch,
      processBatch_pure source model r c T bl i d hm hr hc hi]
    rw [ih _ (fun x hx => h x (List.mem_cons_of_mem i hx))]
    simp

theorem runPipeline_pure (source : Nat → Nat → Nat → ℚ) (model : NDArray → NDArray)
    (r c T bl : Nat) (d : List Char)
    (hm : ∀ a, (model a).shape = a.shape) (hr : 2 ≤ r) (hc : 2 ≤ c) :
    runPipeline (pureCollab source model r c T) d bl =
      .ok ⟨(pyRangeFrom 0 T bl).map (batchFileName d),
           (pyRangeFrom 0 T bl).map (fun i =>
             (batchFileName d i, batchOut source model r c T bl i))⟩ := by
  have h := runFrom_pure source model r c T bl d hm hr hc
    (pyRangeFrom 0 T bl) ⟨[], []⟩ (fun x hx => pyRangeFrom_mem T bl x hx)
  simp only [runPipeline, pureCollab] at h ⊢
  simpa using h

/-! ### Decimal formatting and lexicographic order of file names -/

/-- Value of a decimal digit string, most significant first. -/
def digitsVal : List Char → Nat
  | [] => 0
  | c :: cs => (c.toNat - 48) * 10 ^ cs.length + digitsVal cs

/-- All characters are decimal digits. -/
def allDigits (l : List Char) : Prop := ∀ c ∈ l, 48 ≤ c.toNat ∧ c.toNat ≤ 57

theorem digitChar_toNat (d : Nat) (hd : d < 10) : (digitChar d).toNat = 48 + d := by
  interval_cases d <;> decide

theorem natDigitsAux_digits : ∀ f n, allDigits (natDigitsAux f n) := by
  intro f
  induction f with
  | zero => intro n c hc; simp [natDigitsAux] at hc
  | succ f ih =>
    intro n c hc
    by_cases h : n < 10
    · simp only [natDigitsAux, if_pos h, List.mem_singleton] at hc
      subst hc
      rw [digitChar_toNat n h]
      omega
    · simp only [natDigitsAux, if_neg h, List.mem_append, List.mem_singleton] at hc
      rcases hc with hc | hc
      · exact ih (n / 10) c hc
      · subst hc
        rw [digitChar_toNat _ (Nat.mod_lt n (by omega))]
        omega

theorem digitsVal_append_singleton (xs : List Char) (c : Char) :
    digitsVal (xs ++ [c]) = digitsVal xs * 10 + (c.toNat - 48) := by
  induction xs with
  | nil => simp [digitsVal]
  | cons d ds ih =>
    have hl : (ds ++ [c]).length = ds.length + 1 := by simp
    show (d.toNat - 48) * 10 ^ (ds ++ [c]).length + digitsVal (ds ++ [c])
        = ((d.toNat - 48) * 10 ^ ds.length + digitsVal ds) * 10 + (c.toNat - 48)
    rw [hl, ih]
    ring

theorem natDigitsAux_val : ∀ f n, n < 10 ^ f → digitsVal (natDigitsAux f n) = n := by
  intro f
  induction f with
  | zero =>
    intro n hn
    simp at hn
    simp [hn, natDigitsAux, digitsVal]
  | succ f ih =>
    intro n hn
    by_cases h : n < 10
    · simp only [natDigitsAux, if_pos h, digitsVal, List.length_nil, pow_zero]
      rw [digitChar_toNat n h]
      omega
    · simp only [natDigitsAux, if_neg h]
      have hdiv : n / 10 < 10 ^ f := Nat.div_lt_of_lt_mul (by
        rw [Nat.mul_comm, ← pow_succ]
        exact hn)
      rw [digitsVal_append_singleton, ih (n / 10) hdiv,
        digitChar_toNat _ (Nat.mod_lt n (by omega))]
      omega

theorem natDigitsAux_length_le : ∀ f n, (natDigitsAux f n).length ≤ f := by
  intro f
  induction f with
  | zero => intro n; simp [natDigitsAux]
  | succ f ih =>
    intro n
    by_cases h : n < 10
    · simp [natDigitsAux, h]
    · simp only [natDigitsAux, if_neg h, List.length_append, List.length_singleton]
      have := ih (n / 10)
      omega

theorem natDigitsAux_fuel : ∀ f g n, n < 10 ^ (f + 1) → n < 10 ^ (g + 1) →
    natDigitsAux (f + 1) n = natDigitsAux (g + 1) n := by
  intro f
  induction f with
  | zero =>
    intro g n hf hg
    have h : n < 10 := by simpa using hf
    cases g with
    | zero => rfl
    | succ g => simp [natDigitsAux, h]
  | succ f ih =>
    intro g n hf hg
    by_cases h : n < 10
    · cases g with
      | zero => simp [natDigitsAux, h]
      | succ g => simp [natDigitsAux, h]
    · have hg1 : 1 ≤ g := by
        by_contra hcon
        have hg0 : g = 0 := by omega
        rw [hg0] at hg
        simp at hg
        omega
      obtain ⟨g2, rfl⟩ : ∃ g2, g = g2 + 1 := ⟨g - 1, by omega⟩
      have hdivf : n / 10 < 10 ^ (f + 1) := Nat.div_lt_of_lt_mul (by
        rw [Nat.mul_comm, ← pow_succ]
        exact hf)
      have hdivg : n / 10 < 10 ^ (g2 + 1) := Nat.div_lt_of_lt_mul (by
        rw [Nat.mul_comm, ← pow_succ]
        exact hg)
      have e1 : natDigitsAux (f + 1 + 1) n
          = natDigitsAux (f + 1) (n / 10) ++ [digitChar (n % 10)] := by
        show (if n < 10 then [digitChar n]
          else natDigitsAux (f + 1) (n / 10) ++ [digitChar (n % 10)]) = _
        rw [if_neg h]
      have e2 : natDigitsAux (g2 + 1 + 1) n
          = natDigitsAux (g2 + 1) (n / 10) ++ [digitChar (n % 10)] := by
        show (if n < 10 then [digitChar n]
          else natDigitsAux (g2 + 1) (n / 10) ++ [digitChar (n % 10)]) = _
        rw [if_neg h]
      rw [e1, e2, ih g2 (n / 10) hdivf hdivg]

theorem natDigits_eq_aux (f n : Nat) (hn : n < 10 ^ (f + 1)) :
    natDigits n = natDigitsAux (f + 1) n := by
  have h1 : n < 2 ^ n := Nat.lt_two_pow n
  have h2 : (2:Nat) ^ n ≤ 10 ^ n := Nat.pow_le_pow_left (by omega) n
  have h3 : (10:Nat) ^ n ≤ 10 ^ (n + 1) := Nat.pow_le_pow_right (by omega) (by omega)
  exact natDigitsAux_fuel n f n (by omega) hn

theorem natDigits_val (n : Nat) : digitsVal (natDigits n) = n := by
  have h1 : n < 2 ^ n := Nat.lt_two_pow n
  have h2 : (2:Nat) ^ n ≤ 10 ^ n := Nat.pow_le_pow_left (by omega) n
  have h3 : (10:Nat) ^ n ≤ 10 ^ (n + 1) := Nat.pow_le_pow_right (by omega) (by omega)
  exact natDigitsAux_val (n + 1) n (by omega)

theorem natDigits_digits (n : Nat) : allDigits (natDigits n) :=
  natDigitsAux_digits (n + 1) n

theorem natDigits_length_le (n : Nat) (hn : n < 100000) :
    (natDigits n).length ≤ 5 := by
  have h : n < 10 ^ (4 + 1) := by norm_num; omega
  rw [natDigits_eq_aux 4 n h]
  exact natDigitsAux_length_le 5 n

theorem digitsVal_replicate_zero (k : Nat) (xs : List Char) :
    digitsVal (List.replicate k '0' ++ xs) = digitsVal xs := by
  induction k with
  | zero => simp
  | succ k ih =>
    simp only [List.replicate_succ, List.cons_append, digitsVal, ih]
    have h0 : ('0'.toNat - 48) = 0 := rfl
    rw [h0]
    simp
    exact ih

theorem format05_val (n : Nat) : digitsVal (format05 n) = n := by
  rw [format05, digitsVal_replicate_zero, natDigits_val]

theorem format05_length (n : Nat) (hn : n < 100000) : (format05 n).length = 5 := by
  have := natDigits_length_le n hn
  simp only [format05, List.length_append, List.length_replicate]
  omega

theorem format05_digits (n : Nat) : allDigits (format05 n) := by
  intro c hc
  simp only [format05, List.mem_append, List.mem_replicate] at hc
  rcases hc with ⟨_, rfl⟩ | hc
  · decide
  · exact natDigits_digits n c hc

theorem digitsVal_lt_pow (l : List Char) (h : allDigits l) :
    digitsVal l < 10 ^ l.length := by
  induction l with
  | nil => simp [digitsVal]
  | cons c cs ih =>
    have hc := h c (List.mem_cons_self c cs)
    have hcs : allDigits cs := fun x hx => h x (List.mem_cons_of_mem c hx)
    have h1 : digitsVal cs < 10 ^ cs.length := ih hcs
    have h2 : c.toNat - 48 ≤ 9 := by omega
    have h3 : (c.toNat - 48) * 10 ^ cs.length ≤ 9 * 10 ^ cs.length :=
      Nat.mul_le_mul_right _ h2
    have h4 : (10:Nat) ^ (cs.length + 1) = 10 * 10 ^ cs.length := by
      rw [pow_succ]
      ring
    simp only [digitsVal, List.length_cons, h4]
    omega

theorem digitsVal_head_lt (a b : Char) (as bs : List Char)
    (ha : allDigits (a :: as)) (hlen : as.length = bs.length)
    (h : a.toNat < b.toNat) :
    digitsVal (a :: as) < digitsVal (b :: bs) := by
  have haa := ha a (List.mem_cons_self a as)
  have has : allDigits as := fun x hx => ha x (List.mem_cons_of_mem a hx)
  have h1 : digitsVal as < 10 ^ as.length := digitsVal_lt_pow as has
  have h2 : (a.toNat - 48) + 1 ≤ b.toNat - 48 := by omega
  have h3 : ((a.toNat - 48) + 1) * 10 ^ as.length ≤ (b.toNat - 48) * 10 ^ as.length :=
    Nat.mul_le_mul_right _ h2
  have h4 : ((a.toNat - 48) + 1) * 10 ^ as.length
      = (a.toNat - 48) * 10 ^ as.length + 10 ^ as.length := by ring
  simp only [digitsVal, hlen] at h1 h3 h4 ⊢
  omega

theorem lexLt_iff_val (x : List Char) : ∀ (y : List Char), allDigits x →
    allDigits y → x.length = y.length →
    (lexLt x y = true ↔ digitsVal x < digitsVal y) := by
  induction x with
  | nil =>
    intro y _ _ hlen
    have : y = [] := List.length_eq_zero.mp hlen.symm
    subst this
    simp [lexLt, digitsVal]
  | cons a as ih =>
    intro y hx hy hlen
    cases y with
    | nil => simp at hlen
    | cons b bs =>
      have hlen2 : as.length = bs.length := by
        simpa using hlen
      have has : allDigits as := fun u hu => hx u (List.mem_cons_of_mem a hu)
      have hbs : allDigits bs := fun u hu => hy u (List.mem_cons_of_mem b hu)
      by_cases h1 : a.toNat < b.toNat
      · simp only [lexLt, if_pos h1, true_iff]
        exact digitsVal_head_lt a b as bs hx hlen2 h1
      · by_cases h2 : a.toNat = b.toNat
        · simp only [lexLt, if_neg h1, if_pos h2]
          rw [ih bs has hbs hlen2]
          simp only [digitsVal, hlen2, h2]
          omega
        · simp only [lexLt, if_neg h1, if_neg h2]
          constructor
          · intro hcon
            exact absurd hcon (by simp)
          · intro hcon
            have hb : b.toNat < a.toNat := by omega
            have := digitsVal_head_lt b a bs as hy hlen2.symm hb
            omega

theorem lexLt_append_left : ∀ (p x y : List Char),
    lexLt (p ++ x) (p ++ y) = lexLt x y := by
  intro p
  induction p with
  | nil => intro x y; rfl
  | cons a p ih =>
    intro x y
    simp only [List.cons_append, lexLt, Nat.lt_irrefl, if_neg (Nat.lt_irrefl a.toNat),
      if_pos rfl]
    exact ih x y

theorem lexLt_append_of_lt : ∀ (x y u v : List Char), lexLt x y = true →
    x.length = y.length → lexLt (x ++ u) (y ++ v) = true := by
  intro x
  induction x with
  | nil =>
    intro y u v h hlen
    have : y = [] := List.length_eq_zero.mp hlen.symm
    subst this
    simp [lexLt] at h
  | cons a as ih =>
    intro y u v h hlen
    cases y with
    | nil => simp at hlen
    | cons b bs =>
      have hlen2 : as.length = bs.length := by simpa using hlen
      by_cases h1 : a.toNat < b.toNat
      · simp [List.cons_append, lexLt, h1]
      · by_cases h2 : a.toNat = b.toNat
        · simp only [lexLt, if_neg h1, if_pos h2] at h
          simp only [List.cons_append, lexLt, if_neg h1, if_pos h2]
          exact ih bs u v h hlen2
        · simp only [lexLt, if_neg h1, if_neg h2] at h
          exact absurd h (by simp)

theorem format05_lt (a b : Nat) (hab : a < b) (hb : b < 100000) :
    lexLt (format05 a) (format05 b) = true := by
  rw [lexLt_iff_val (format05 a) (format05 b) (format05_digits a) (format05_digits b)
    (by rw [format05_length a (by omega), format05_length b hb])]
  rw [format05_val, format05_val]
  exact hab

theorem batchFileName_split (d : List Char) (n : Nat) :
    batchFileName d n = (d ++ '/' :: "pfc_back_removed_".toList)
      ++ (format05 n ++ ".h5".toList) := by
  simp [batchFileName]

/-- Zero-padded naming orders chronologically as long as the start index
fits in 5 digits. -/
theorem batchFileName_lt (d : List Char) (a b : Nat) (hab : a < b)
    (hb : b < 100000) :
    lexLt (batchFileName d a) (batchFileName d b) = true := by
  rw [batchFileName_split, batchFileName_split, lexLt_append_left]
  exact lexLt_append_of_lt (format05 a) (format05 b) _ _
    (format05_lt a b hab hb)
    (by rw [format05_length a (by omega), format05_length b hb])

/-! ### The memory-mapped composite (cell 20), modelled from the spec -/

/-- Frames of a persisted batch file of shape (b, rows, cols): frame t is
its C-order pixel list of length rows * cols. -/
def splitFrames (rows cols : Nat) (a : NDArray) : List (List ℚ) :=
  (List.range (frameCount a)).map fun t =>
    (a.data.drop (t * (rows * cols))).take (rows * cols)

/-- Concatenation of the frames of an ordered list of batch files. -/
def concatFrames (rows cols : Nat) : List NDArray → List (List ℚ)
  | [] => []
  | a :: rest => splitFrames rows cols a ++ concatFrames rows cols rest

/-- Modelled from the spec: cm.save_memmap is a caiman library function
whose code is not part of this repository snapshot (only this notebook
caller is).  Per the spec (section 4.1, materialize; section 6), the
ordered batch files are concatenated into a single on-disk array of shape
(pixels, total_frames) with pixels = rows * cols, the pixel index within
a frame taken in the declared column-major storage order, and
total_frames computed from the concatenated metadata. -/
def materialize (rows cols : Nat) (files : List NDArray) : NDArray :=
  let frames := concatFrames rows cols files
  let total := frames.length
  ⟨[rows * cols, total],
   (List.range ((rows * cols) * total)).map fun k =>
     (frames.getD (k % total) []).getD ((k / total % rows) * cols + k / total / rows) 0⟩

/-- Flatten an array in F (column-major) order. -/
def flattenF (a : NDArray) : List ℚ :=
  (List.range a.shape.prod).map fun k =>
    a.data.getD (ravelIdx a.shape (unravelF a.shape k)) 0

/-- np.reshape(-, shape, order='F'): fill the C-order data of the result
from the F-order flattening of the argument. -/
def reshapeF (shape : List Nat) (flat : List ℚ) : NDArray :=
  ⟨shape, (List.range shape.prod).map fun k =>
    flat.getD (ravelF shape (unravel shape k)) 0⟩

/-- np.transpose(x, (2, 0, 1)) on a 3-d array: move the trailing frame
axis to the front. -/
def transposeFrameFront (a : NDArray) : NDArray :=
  match a.shape with
  | [r, c, t] =>
    ⟨[t, r, c], (List.range (t * (r * c))).map fun k =>
      a.data.getD (ravelIdx [r, c, t]
        [k % (r * c) / c, k % (r * c) % c, k / (r * c)]) 0⟩
  | _ => a

/-- Modelled from the spec: reading back the composite (cell 20 uses
cm.load_memmap, whose code is not part of this snapshot): reshape the
mapped array by dims + (total_frames,) in the declared storage order and
transpose the frame axis to the front. -/
def readBack (rows cols total : Nat) (comp : NDArray) : NDArray :=
  transposeFrameFront (reshapeF [rows, cols, total] (flattenF comp))

theorem mul_add_div_eq (a q m : Nat) (ha : 0 < a) (hm : m < a) :
    (a * q + m) / a = q := by
  rw [Nat.mul_add_div ha, Nat.div_eq_of_lt hm]
  omega

theorem mul_add_mod_eq (a q m : Nat) (hm : m < a) : (a * q + m) % a = m := by
  rw [Nat.mul_add_mod, Nat.mod_eq_of_lt hm]

theorem ravelF_triple (a b c x y z : Nat) :
    ravelF [a, b, c] [x, y, z] = x + a * (y + b * z) := by
  simp [ravelF]

theorem ravelIdx_pair (a b x y : Nat) : ravelIdx [a, b] [x, y] = x * b + y := by
  simp [ravelIdx, List.prod_cons, List.prod_nil]

theorem transpose_reshape_get (r c T : Nat) (flat : List ℚ) (t x y : Nat)
    (ht : t < T) (hx : x < r) (hy : y < c) :
    ndGet (transposeFrameFront (reshapeF [r, c, T] flat)) [t, x, y]
      = (reshapeF [r, c, T] flat).data.getD (ravelIdx [r, c, T] [x, y, t]) 0 := by
  have hred : transposeFrameFront (reshapeF [r, c, T] flat)
      = ⟨[T, r, c], (List.range (T * (r * c))).map fun k =>
          (reshapeF [r, c, T] flat).data.getD (ravelIdx [r, c, T]
            [k % (r * c) / c, k % (r * c) % c, k / (r * c)]) 0⟩ := rfl
  rw [hred]
  simp only [ndGet]
  rw [ravelIdx_triple T r c t x y,
    getD_range_map _ _ _ _ (triple_idx_lt T r c t x y ht hx hy)]
  have hm : c * x + y < r * c := inner_lt r c x y hx hy
  rw [mul_add_mod_eq _ _ _ hm,
    mul_add_div_eq _ _ _ (Nat.mul_pos (by omega) (by omega)) hm,
    mul_add_div_eq c x y (by omega) hy, mul_add_mod_eq c x y hy]

theorem reshapeF_get (r c T : Nat) (flat : List ℚ) (x y t : Nat)
    (hx : x < r) (hy : y < c) (ht : t < T) :
    (reshapeF [r, c, T] flat).data.getD (ravelIdx [r, c, T] [x, y, t]) 0
      = flat.getD (x + r * (y + c * t)) 0 := by
  simp only [reshapeF]
  rw [ravelIdx_triple r c T x y t]
  have hprod : ([r, c, T]).prod = r * (c * T) := by
    simp [List.prod_cons, List.prod_nil]
  rw [hprod,
    getD_range_map _ _ _ _ (triple_idx_lt r c T x y t hx hy ht),
    unravel_triple r c T x y t hy ht,
    ravelF_triple r c T x y t]

theorem flattenF_materialize_get (rows cols : Nat) (files : List NDArray)
    (t x y : Nat) (ht : t < (concatFrames rows cols files).length)
    (hx : x < rows) (hy : y < cols) :
    (flattenF (materialize rows cols files)).getD (x + rows * (y + cols * t)) 0
      = ((concatFrames rows cols files).getD t []).getD (x * cols + y) 0 := by
  have hr : 0 < rows := by omega
  have hc : 0 < cols := by omega
  have htot : 0 < (concatFrames rows cols files).length := by omega
  have hrc : 0 < rows * cols := Nat.mul_pos hr hc
  set frames := concatFrames rows cols files with hframes
  set total := frames.length with htotal
  have hm : rows * y + x < rows * cols := by
    have := inner_lt cols rows y x hy hx
    have hcomm : cols * rows = rows * cols := Nat.mul_comm cols rows
    omega
  have ekey : x + rows * (y + cols * t) = (rows * cols) * t + (rows * y + x) := by
    ring
  have hshape : (materialize rows cols files).shape = [rows * cols, total] := rfl
  have hdata : (materialize rows cols files).data
      = (List.range ((rows * cols) * total)).map fun k =>
          (frames.getD (k % total) []).getD
            ((k / total % rows) * cols + k / total / rows) 0 := rfl
  simp only [flattenF, hshape, hdata]
  have hprod : ([rows * cols, total]).prod = (rows * cols) * total := by
    simp [List.prod_cons, List.prod_nil]
  rw [hprod, ekey]
  have hb : (rows * cols) * t + (rows * y + x) < (rows * cols) * total := by
    have e1 : (rows * cols) * (t + 1) = (rows * cols) * t + rows * cols := by ring
    have e2 : (rows * cols) * (t + 1) ≤ (rows * cols) * total :=
      Nat.mul_le_mul_left _ (by omega)
    omega
  rw [getD_range_map _ _ _ _ hb]
  simp only [unravelF]
  rw [mul_add_mod_eq _ _ _ hm, mul_add_div_eq _ _ _ hrc hm,
    Nat.mod_eq_of_lt ht]
  simp only [ravelIdx_pair]
  have ekey2 : (rows * y + x) * total + t = total * (rows * y + x) + t := by ring
  rw [ekey2]
  have hb2 : total * (rows * y + x) + t < (rows * cols) * total := by
    have := inner_lt (rows * cols) total (rows * y + x) t hm ht
    omega
  rw [getD_range_map _ _ _ _ hb2]
  rw [mul_add_mod_eq total _ t ht, mul_add_div_eq total _ t htot ht,
    mul_add_mod_eq rows y x hx, mul_add_div_eq rows y x hr hx]

/-- Round-trip through the composite: reading the memory-mapped array back
as (total, rows, cols) reproduces the concatenated filtered frames value
for value. -/
theorem materialize_roundTrip (rows cols : Nat) (files : List NDArray)
    (t x y : Nat) (ht : t < (concatFrames rows cols files).length)
    (hx : x < rows) (hy : y < cols) :
    ndGet (readBack rows cols (concatFrames rows cols files).length
        (materialize rows cols files)) [t, x, y]
      = ((concatFrames rows cols files).getD t []).getD (x * cols + y) 0 := by
  rw [readBack, transpose_reshape_get rows cols _ _ t x y ht hx hy,
    reshapeF_get rows cols _ _ x y t hx hy ht,
    flattenF_materialize_get rows cols files t x y ht hx hy]

/-- The cell-20 composite step applied to a run outcome: the composite is
built only from a completed run; an aborted run produces none. -/
def compositeOf (rows cols : Nat) : RunOutcome → Option NDArray
  | .ok s => some (materialize rows cols (s.disk.map Prod.snd))
  | .failed _ _ => none

theorem concatFrames_length (rows cols : Nat) :
    ∀ files : List NDArray,
      (concatFrames rows cols files).length = (files.map frameCount).sum := by
  intro files
  induction files with
  | nil => rfl
  | cons a rest ih =>
    simp [concatFrames, splitFrames, ih]

theorem pyRangeFrom_sum (T bl : Nat) (hbl : 0 < bl) :
    ((pyRangeFrom 0 T bl).map (fun x => min bl (T - x))).sum = T := by
  have := pyRangeFromAux_sum bl hbl (T - 0) 0 T (by omega)
  simpa using this

theorem run_pure_frameCounts (source : Nat → Nat → Nat → ℚ)
    (model : NDArray → NDArray) (r c T bl : Nat) (d : List Char)
    (hm : ∀ a, (model a).shape = a.shape) (hr : 2 ≤ r) (hc : 2 ≤ c) :
    (diskArrays (runPipeline (pureCollab source model r c T) d bl)).map frameCount
      = (pyRangeFrom 0 T bl).map (fun i => min bl (T - i)) := by
  rw [runPipeline_pure source model r c T bl d hm hr hc]
  simp only [diskArrays, diskOf, List.map_map]
  apply List.map_congr_left
  intro a _
  simp only [Function.comp_apply]
  rw [show frameCount (batchOut source model r c T bl a) = min bl (T - a) by
    rw [frameCount, batchOut_shape source model r c T bl a hm hr hc]
    rfl]

theorem run_pure_arrays (source : Nat → Nat → Nat → ℚ)
    (model : NDArray → NDArray) (r c T bl : Nat) (d : List Char)
    (hm : ∀ a, (model a).shape = a.shape) (hr : 2 ≤ r) (hc : 2 ≤ c) :
    diskArrays (runPipeline (pureCollab source model r c T) d bl)
      = (pyRangeFrom 0 T bl).map (batchOut source model r c T bl) := by
  rw [runPipeline_pure source model r c T bl d hm hr hc]
  simp [diskArrays, diskOf, List.map_map]

theorem processBatch_ok_name (C : Collab) (d : List Char) (bl i : Nat)
    (f : List Char) (a : NDArray) (h : processBatch C d bl i = .ok f a) :
    f = batchFileName d i := by
  unfold processBatch at h
  split at h
  · exact absurd h (by simp)
  · split at h
    · exact absurd h (by simp)
    · dsimp only at h
      split at h
      · exact absurd h (by simp)
      · split at h
        · injection h with h1 h2
          exact h1.symm
        · exact absurd h (by simp)

theorem pyRangeFromAux_mem_one :
    ∀ f i stop x, i ≤ x → x < stop → stop - i ≤ f →
      x ∈ pyRangeFromAux f i stop 1 := by
  intro f
  induction f with
  | zero => intro i stop x h1 h2 hf; omega
  | succ f ih =>
    intro i stop x h1 h2 hf
    have hlt : i < stop := by omega
    simp only [pyRangeFromAux, if_pos hlt]
    by_cases hx : x = i
    · exact hx ▸ List.mem_cons_self i _
    · exact List.mem_cons_of_mem i (ih (i + 1) stop x (by omega) h2 (by omega))

/-! ### Claims -/

/-- C1: for every total frame count T >= 1 and batch_length >= 1 (on a
well-formed movie with spatial dims at least 2 and a shape-preserving
background model), the batch filtering loop completes and produces exactly
ceil(T / batch_length) output files, and the frame counts of the persisted
batch files sum to exactly T. -/
theorem claim1_batch_counts (source : Nat → Nat → Nat → ℚ)
    (model : NDArray → NDArray) (r c T bl : Nat) (d : List Char)
    (hm : ∀ a, (model a).shape = a.shape) (hr : 2 ≤ r) (hc : 2 ≤ c)
    (hT : 1 ≤ T) (hbl : 1 ≤ bl) :
    (runPipeline (pureCollab source model r c T) d bl).isOkR = true ∧
    (diskArrays (runPipeline (pureCollab source model r c T) d bl)).length
      = (T + bl - 1) / bl ∧
    ((diskArrays (runPipeline (pureCollab source model r c T) d bl)).map
      frameCount).sum = T := by
  refine ⟨?_, ?_, ?_⟩
  · rw [runPipeline_pure source model r c T bl d hm hr hc]
    rfl
  · rw [run_pure_arrays source model r c T bl d hm hr hc]
    rw [List.length_map]
    exact pyRangeFrom_length T bl hbl
  · rw [run_pure_frameCounts source model r c T bl d hm hr hc]
    exact pyRangeFrom_sum T bl hbl

theorem claim1_batch_counts_witness :
    (runPipeline (pureCollab (fun _ _ _ => (0:ℚ)) (fun a => a) 2 2 5) [] 2).isOkR
        = true ∧
    (diskArrays (runPipeline (pureCollab (fun _ _ _ => (0:ℚ)) (fun a => a) 2 2 5)
        [] 2)).length = (5 + 2 - 1) / 2 ∧
    ((diskArrays (runPipeline (pureCollab (fun _ _ _ => (0:ℚ)) (fun a => a) 2 2 5)
        [] 2)).map frameCount).sum = 5 :=
  claim1_batch_counts (fun _ _ _ => (0:ℚ)) (fun a => a) 2 2 5 2 []
    (fun _ => rfl) (by omega) (by omega) (by omega) (by omega)

/-- C2: every batch persisted by the loop equals
max(original - estimated_background, 0) elementwise (the background being
the squeezed model output read under numpy broadcasting), and consequently
every value in every persisted batch file is nonnegative. -/
theorem claim2_clamp (source : Nat → Nat → Nat → ℚ)
    (model : NDArray → NDArray) (r c T bl : Nat) (d : List Char)
    (hm : ∀ a, (model a).shape = a.shape) (hr : 2 ≤ r) (hc : 2 ≤ c) :
    diskArrays (runPipeline (pureCollab source model r c T) d bl)
      = (pyRangeFrom 0 T bl).map (batchOut source model r c T bl) ∧
    (∀ a ∈ diskArrays (runPipeline (pureCollab source model r c T) d bl),
      ∀ x ∈ a.data, 0 ≤ x) ∧
    (∀ i ∈ pyRangeFrom 0 T bl, ∀ t x y, t < min bl (T - i) → x < r → y < c →
      (batchOut source model r c T bl i).data.getD
          (ravelIdx [min bl (T - i), r, c] [t, x, y]) 0
        = max (source (i + t) x y
            - bGet (filtOf model (loadBatch source r c T bl i)) [t, x, y]) 0) := by
  refine ⟨run_pure_arrays source model r c T bl d hm hr hc, ?_, ?_⟩
  · intro a ha x hx
    rw [run_pure_arrays source model r c T bl d hm hr hc] at ha
    simp only [List.mem_map] at ha
    obtain ⟨i, _, rfl⟩ := ha
    exact batchOut_nonneg source model r c T bl i x hx
  · intro i _ t x y ht hx hy
    exact batchOut_value source model r c T bl i t x y hm hr hc ht hx hy

theorem claim2_clamp_witness :
    diskArrays (runPipeline (pureCollab (fun t _ _ => (t:ℚ)) (fun a => a) 2 2 5)
        [] 2)
      = (pyRangeFrom 0 5 2).map (batchOut (fun t _ _ => (t:ℚ)) (fun a => a) 2 2 5 2) ∧
    (∀ a ∈ diskArrays (runPipeline (pureCollab (fun t _ _ => (t:ℚ)) (fun a => a)
        2 2 5) [] 2), ∀ x ∈ a.data, 0 ≤ x) ∧
    (∀ i ∈ pyRangeFrom 0 5 2, ∀ t x y, t < min 2 (5 - i) → x < 2 → y < 2 →
      (batchOut (fun t _ _ => (t:ℚ)) (fun a => a) 2 2 5 2 i).data.getD
          (ravelIdx [min 2 (5 - i), 2, 2] [t, x, y]) 0
        = max ((i + t : Nat)
            - bGet (filtOf (fun a => a)
                (loadBatch (fun t _ _ => (t:ℚ)) 2 2 5 2 i)) [t, x, y]) 0) :=
  claim2_clamp (fun t _ _ => (t:ℚ)) (fun a => a) 2 2 5 2 []
    (fun _ => rfl) (by omega) (by omega)

/-- C9: a source movie with T = 0 frames yields a run that performs no
model inference (the collaborators may even all fail), creates no output
files, and records no output paths. -/
theorem claim9_empty_run (C : Collab) (d : List Char) (bl : Nat)
    (hT : C.T = 0) : runPipeline C d bl = .ok ⟨[], []⟩ := by
  unfold runPipeline
  rw [hT]
  rfl

theorem claim9_empty_run_witness :
    runPipeline ⟨0, fun _ _ => none, fun _ => none, fun _ => false⟩ [] 7
      = .ok ⟨[], []⟩ :=
  claim9_empty_run ⟨0, fun _ _ => none, fun _ => none, fun _ => false⟩ [] 7 rfl

/-- C4: the final batch holds T mod batch_length frames when T is not
divisible (batch_length frames when it is); the composite built from the
run has shape (rows * cols, T); and concretely range(0, 1000, 256) yields
batches starting at 0, 256, 512, 768 of sizes 256, 256, 256, 232, giving
ceil(1000 / 256) = 4 output files. -/
theorem claim4_boundary (source : Nat → Nat → Nat → ℚ)
    (model : NDArray → NDArray) (r c T bl : Nat) (d : List Char)
    (hm : ∀ a, (model a).shape = a.shape) (hr : 2 ≤ r) (hc : 2 ≤ c)
    (hT : 1 ≤ T) (hbl : 1 ≤ bl) :
    ((diskArrays (runPipeline (pureCollab source model r c T) d bl)).map
        frameCount).getLast? = some (if T % bl = 0 then bl else T % bl) ∧
    (diskArrays (runPipeline (pureCollab source model r c T) d bl)).length
      = (T + bl - 1) / bl ∧
    (materialize r c (diskArrays (runPipeline (pureCollab source model r c T)
        d bl))).shape = [r * c, T] ∧
    pyRangeFrom 0 1000 256 = [0, 256, 512, 768] ∧
    (pyRangeFrom 0 1000 256).map (fun i => min 256 (1000 - i))
      = [256, 256, 256, 232] ∧
    (1000 + 256 - 1) / 256 = 4 := by
  refine ⟨?_, ?_, ?_, by decide, by decide, by decide⟩
  · rw [run_pure_frameCounts source model r c T bl d hm hr hc]
    exact pyRangeFrom_last_size T bl hbl hT
  · rw [run_pure_arrays source model r c T bl d hm hr hc, List.length_map]
    exact pyRangeFrom_length T bl hbl
  · have hshape : (materialize r c (diskArrays (runPipeline
        (pureCollab source model r c T) d bl))).shape
        = [r * c, (concatFrames r c (diskArrays (runPipeline
            (pureCollab source model r c T) d bl))).length] := rfl
    rw [hshape, concatFrames_length, run_pure_frameCounts source model r c T bl d
      hm hr hc, pyRangeFrom_sum T bl hbl]

theorem claim4_boundary_witness :
    ((diskArrays (runPipeline (pureCollab (fun _ _ _ => (0:ℚ)) (fun a => a) 2 2 5)
        [] 2)).map frameCount).getLast? = some (if 5 % 2 = 0 then 2 else 5 % 2) ∧
    (diskArrays (runPipeline (pureCollab (fun _ _ _ => (0:ℚ)) (fun a => a) 2 2 5)
        [] 2)).length = (5 + 2 - 1) / 2 ∧
    (materialize 2 2 (diskArrays (runPipeline (pureCollab (fun _ _ _ => (0:ℚ))
        (fun a => a) 2 2 5) [] 2))).shape = [2 * 2, 5] ∧
    pyRangeFrom 0 1000 256 = [0, 256, 512, 768] ∧
    (pyRangeFrom 0 1000 256).map (fun i => min 256 (1000 - i))
      = [256, 256, 256, 232] ∧
    (1000 + 256 - 1) / 256 = 4 :=
  claim4_boundary (fun _ _ _ => (0:ℚ)) (fun a => a) 2 2 5 2 []
    (fun _ => rfl) (by omega) (by omega) (by omega) (by omega)

/-- C5 counterexample: for a run with T = 100001 and batch_length = 1, the
start indices 99999 and 100000 both occur, 99999 precedes 100000
chronologically, yet the file name for start 100000 sorts lexicographically
strictly before the one for start 99999 (the 5-digit zero padding
overflows), so lexicographic ordering does not coincide with chronological
ordering. -/
theorem claim5_counterexample :
    99999 ∈ pyRangeFrom 0 100001 1 ∧
    100000 ∈ pyRangeFrom 0 100001 1 ∧
    99999 < 100000 ∧
    lexLt (batchFileName [] 100000) (batchFileName [] 99999) = true ∧
    lexLt (batchFileName [] 99999) (batchFileName [] 100000) = false :=
  ⟨pyRangeFromAux_mem_one (100001 - 0) 0 100001 99999 (by omega) (by omega)
      (by omega),
   pyRangeFromAux_mem_one (100001 - 0) 0 100001 100000 (by omega) (by omega)
      (by omega),
   by omega, by decide, by decide⟩

/-- C5 (amended): each output file name embeds the start index zero-padded
to 5 digits, the run records the output paths in ascending frame order,
and as long as every start index fits in 5 digits (T <= 100000) the
lexicographic order of the recorded paths coincides with the chronological
order. -/
theorem claim5_name_order (source : Nat → Nat → Nat → ℚ)
    (model : NDArray → NDArray) (r c T bl : Nat) (d : List Char)
    (hm : ∀ a, (model a).shape = a.shape) (hr : 2 ≤ r) (hc : 2 ≤ c)
    (hbl : 1 ≤ bl) (hcap : T ≤ 100000) :
    savedOf (runPipeline (pureCollab source model r c T) d bl)
      = (pyRangeFrom 0 T bl).map (batchFileName d) ∧
    List.Pairwise (· < ·) (pyRangeFrom 0 T bl) ∧
    List.Pairwise (fun u v => lexLt u v = true)
      (savedOf (runPipeline (pureCollab source model r c T) d bl)) := by
  have hsaved : savedOf (runPipeline (pureCollab source model r c T) d bl)
      = (pyRangeFrom 0 T bl).map (batchFileName d) := by
    rw [runPipeline_pure source model r c T bl d hm hr hc]
    rfl
  refine ⟨hsaved, pyRangeFrom_pairwise T bl hbl, ?_⟩
  rw [hsaved, List.pairwise_map]
  refine List.Pairwise.imp_of_mem ?_ (pyRangeFrom_pairwise T bl hbl)
  intro a b _ hbmem hab
  exact batchFileName_lt d a b hab
    (by
      have := pyRangeFrom_mem T bl b hbmem
      omega)

theorem claim5_name_order_witness :
    savedOf (runPipeline (pureCollab (fun _ _ _ => (0:ℚ)) (fun a => a) 2 2 5)
        [] 2) = (pyRangeFrom 0 5 2).map (batchFileName []) ∧
    List.Pairwise (· < ·) (pyRangeFrom 0 5 2) ∧
    List.Pairwise (fun u v => lexLt u v = true)
      (savedOf (runPipeline (pureCollab (fun _ _ _ => (0:ℚ)) (fun a => a) 2 2 5)
        [] 2)) :=
  claim5_name_order (fun _ _ _ => (0:ℚ)) (fun a => a) 2 2 5 2 []
    (fun _ => rfl) (by omega) (by omega) (by omega) (by omega)

/-- C6: with T = 1000 and batch_length = 256, if the batches starting at 0
and 256 process successfully and model inference raises on the batch
starting at 512, the run aborts at start index 512: exactly the output
files for starts 0 and 256 are on disk, no later batch (768) is processed,
and no composite file is produced. -/
theorem claim6_failfast (C : Collab) (d : List Char) (hT : C.T = 1000)
    (h0 : (processBatch C d 256 0).isOkB = true)
    (h1 : (processBatch C d 256 256).isOkB = true)
    (h2 : processBatch C d 256 512 = .earlyFail) :
    failIndexOf (runPipeline C d 256) = some 512 ∧
    diskNames (runPipeline C d 256) = [batchFileName d 0, batchFileName d 256] ∧
    savedOf (runPipeline C d 256) = [batchFileName d 0, batchFileName d 256] ∧
    ∀ rows cols, compositeOf rows cols (runPipeline C d 256) = none := by
  have hstarts : pyRangeFrom 0 C.T 256 = [0, 256, 512, 768] := by
    rw [hT]
    decide
  cases hpb0 : processBatch C d 256 0 with
  | earlyFail => rw [hpb0] at h0; simp [BatchResult.isOkB] at h0
  | lateFail f => rw [hpb0] at h0; simp [BatchResult.isOkB] at h0
  | ok f0 a0 =>
    cases hpb1 : processBatch C d 256 256 with
    | earlyFail => rw [hpb1] at h1; simp [BatchResult.isOkB] at h1
    | lateFail f => rw [hpb1] at h1; simp [BatchResult.isOkB] at h1
    | ok f1 a1 =>
      have hf0 : f0 = batchFileName d 0 :=
        processBatch_ok_name C d 256 0 f0 a0 hpb0
      have hf1 : f1 = batchFileName d 256 :=
        processBatch_ok_name C d 256 256 f1 a1 hpb1
      have hrun : runPipeline C d 256
          = .failed 512 ⟨[f0, f1], [(f0, a0), (f1, a1)]⟩ := by
        unfold runPipeline
        rw [hstarts]
        simp only [runFrom, runBatch, hpb0, hpb1, h2]
        rfl
      rw [hrun, hf0, hf1]
      exact ⟨rfl, rfl, rfl, fun rows cols => rfl⟩

/-- Collaborators for the C6 witness: inference raises exactly on the batch
whose first pixel value is 1, which the source places at frame 512. -/
def collabFail512 : Collab :=
  ⟨1000,
   fun a b => some (loadSlice (fun t _ _ => if t = 512 then 1 else 0) 2 2 1000 a b),
   fun a => if a.data.getD 0 0 == (1:ℚ) then none else some a,
   fun _ => true⟩

theorem claim6_failfast_witness :
    failIndexOf (runPipeline collabFail512 [] 256) = some 512 ∧
    diskNames (runPipeline collabFail512 [] 256)
      = [batchFileName [] 0, batchFileName [] 256] ∧
    savedOf (runPipeline collabFail512 [] 256)
      = [batchFileName [] 0, batchFileName [] 256] ∧
    ∀ rows cols, compositeOf rows cols (runPipeline collabFail512 [] 256) = none :=
  claim6_failfast collabFail512 [] rfl (by decide) (by decide) (by decide)

/-- Collaborators for the C7 counterexample: everything behaves except that
persisting fails. -/
def failSaveCollab : Collab :=
  ⟨1, fun a b => some (loadSlice (fun _ _ _ => 0) 2 2 1 a b), fun a => some a,
   fun _ => false⟩

/-- C7 counterexample: the loop appends the path to saved_files before
calling save, so when the write of the batch starting at 0 fails, the
recorded path list contains that path although no file was written. -/
theorem claim7_counterexample :
    savedOf (runPipeline failSaveCollab [] 1) = [batchFileName [] 0] ∧
    diskOf (runPipeline failSaveCollab [] 1) = [] := by
  decide

/-- C7 (amended): the loop records each path just before attempting the
persist; on a run in which every persist succeeds, the recorded path list
equals, in order, the names of the files actually written. -/
theorem claim7_record_matches (source : Nat → Nat → Nat → ℚ)
    (model : NDArray → NDArray) (r c T bl : Nat) (d : List Char)
    (hm : ∀ a, (model a).shape = a.shape) (hr : 2 ≤ r) (hc : 2 ≤ c) :
    savedOf (runPipeline (pureCollab source model r c T) d bl)
      = diskNames (runPipeline (pureCollab source model r c T) d bl) := by
  rw [runPipeline_pure source model r c T bl d hm hr hc]
  simp [savedOf, diskNames, diskOf, List.map_map]

theorem claim7_record_matches_witness :
    savedOf (runPipeline (pureCollab (fun _ _ _ => (0:ℚ)) (fun a => a) 2 2 5)
        [] 2)
      = diskNames (runPipeline (pureCollab (fun _ _ _ => (0:ℚ)) (fun a => a)
        2 2 5) [] 2) :=
  claim7_record_matches (fun _ _ _ => (0:ℚ)) (fun a => a) 2 2 5 2 []
    (fun _ => rfl) (by omega) (by omega)

/-- C8: two runs with identical source, model and batch_length into two
different output directories both complete and persist identical array
contents file for file (the directory affects only the path names). -/
theorem claim8_determinism (source : Nat → Nat → Nat → ℚ)
    (model : NDArray → NDArray) (r c T bl : Nat) (d1 d2 : List Char)
    (hm : ∀ a, (model a).shape = a.shape) (hr : 2 ≤ r) (hc : 2 ≤ c) :
    diskArrays (runPipeline (pureCollab source model r c T) d1 bl)
      = diskArrays (runPipeline (pureCollab source model r c T) d2 bl) ∧
    (runPipeline (pureCollab source model r c T) d1 bl).isOkR = true ∧
    (runPipeline (pureCollab source model r c T) d2 bl).isOkR = true := by
  refine ⟨?_, ?_, ?_⟩
  · rw [run_pure_arrays source model r c T bl d1 hm hr hc,
      run_pure_arrays source model r c T bl d2 hm hr hc]
  · rw [runPipeline_pure source model r c T bl d1 hm hr hc]
    rfl
  · rw [runPipeline_pure source model r c T bl d2 hm hr hc]
    rfl

theorem claim8_determinism_witness :
    diskArrays (runPipeline (pureCollab (fun t x y => (t + x + y : Nat))
        (fun a => a) 2 2 5) ['a'] 2)
      = diskArrays (runPipeline (pureCollab (fun t x y => (t + x + y : Nat))
        (fun a => a) 2 2 5) ['b'] 2) ∧
    (runPipeline (pureCollab (fun t x y => (t + x + y : Nat)) (fun a => a) 2 2 5)
        ['a'] 2).isOkR = true ∧
    (runPipeline (pureCollab (fun t x y => (t + x + y : Nat)) (fun a => a) 2 2 5)
        ['b'] 2).isOkR = true :=
  claim8_determinism (fun t x y => (t + x + y : Nat)) (fun a => a) 2 2 5 2 ['a'] ['b']
    (fun _ => rfl) (by omega) (by omega)

/-- C10 counterexample: with degenerate spatial dims rows = 1, cols = 2 and
a 2-frame batch, np.squeeze also drops the unit row axis, and the
broadcasting of (2,1,2) against (2,2) gives the persisted array shape
(2,2,2), not the loaded batch shape (2,1,2). -/
theorem claim10_counterexample :
    (diskArrays (runPipeline (pureCollab (fun _ _ _ => (0:ℚ)) (fun a => a) 1 2 2)
        [] 2)).map NDArray.shape = [[2, 2, 2]] ∧
    (loadBatch (fun _ _ _ => (0:ℚ)) 1 2 2 2 0).shape = [2, 1, 2] := by
  decide

/-- C10 (amended): when both spatial dims are at least 2, every persisted
array (including a final batch of exactly one frame, whose frame axis the
squeeze drops but broadcasting reinstates) has the same
(batch_frames, rows, cols) shape as the batch loaded from the source. -/
theorem claim10_shape (source : Nat → Nat → Nat → ℚ)
    (model : NDArray → NDArray) (r c T bl : Nat) (d : List Char)
    (hm : ∀ a, (model a).shape = a.shape) (hr : 2 ≤ r) (hc : 2 ≤ c) :
    diskArrays (runPipeline (pureCollab source model r c T) d bl)
      = (pyRangeFrom 0 T bl).map (batchOut source model r c T bl) ∧
    ∀ i ∈ pyRangeFrom 0 T bl,
      (batchOut source model r c T bl i).shape
        = (loadBatch source r c T bl i).shape ∧
      (batchOut source model r c T bl i).shape = [min bl (T - i), r, c] := by
  refine ⟨run_pure_arrays source model r c T bl d hm hr hc, ?_⟩
  intro i _
  rw [batchOut_shape source model r c T bl i hm hr hc, loadBatch_shape]
  exact ⟨rfl, rfl⟩

theorem claim10_shape_witness :
    diskArrays (runPipeline (pureCollab (fun _ _ _ => (0:ℚ)) (fun a => a) 2 2 5)
        [] 2)
      = (pyRangeFrom 0 5 2).map (batchOut (fun _ _ _ => (0:ℚ)) (fun a => a)
        2 2 5 2) ∧
    ∀ i ∈ pyRangeFrom 0 5 2,
      (batchOut (fun _ _ _ => (0:ℚ)) (fun a => a) 2 2 5 2 i).shape
        = (loadBatch (fun _ _ _ => (0:ℚ)) 2 2 5 2 i).shape ∧
      (batchOut (fun _ _ _ => (0:ℚ)) (fun a => a) 2 2 5 2 i).shape
        = [min 2 (5 - i), 2, 2] :=
  claim10_shape (fun _ _ _ => (0:ℚ)) (fun a => a) 2 2 5 2 []
    (fun _ => rfl) (by omega) (by omega)

/-- C3: the concatenated frames persisted by a run number exactly T, and
reading back the memory-mapped composite built from the run files -
reshaping by dims + (total_frames,) in the declared storage order and
transposing the frame axis to the front - reproduces the concatenation of
the per-batch filtered outputs frame for frame and value for value. -/
theorem claim3_roundtrip (source : Nat → Nat → Nat → ℚ)
    (model : NDArray → NDArray) (r c T bl : Nat) (d : List Char)
    (hm : ∀ a, (model a).shape = a.shape) (hr : 2 ≤ r) (hc : 2 ≤ c)
    (hbl : 1 ≤ bl) :
    (concatFrames r c (diskArrays (runPipeline (pureCollab source model r c T)
        d bl))).length = T ∧
    ∀ t x y, t < T → x < r → y < c →
      ndGet (readBack r c T (materialize r c (diskArrays (runPipeline
          (pureCollab source model r c T) d bl)))) [t, x, y]
        = ((concatFrames r c (diskArrays (runPipeline
            (pureCollab source model r c T) d bl))).getD t []).getD
            (x * c + y) 0 := by
  have hlen : (concatFrames r c (diskArrays (runPipeline
      (pureCollab source model r c T) d bl))).length = T := by
    rw [concatFrames_length,
      run_pure_frameCounts source model r c T bl d hm hr hc,
      pyRangeFrom_sum T bl hbl]
  refine ⟨hlen, ?_⟩
  intro t x y ht hx hy
  have h := materialize_roundTrip r c
    (diskArrays (runPipeline (pureCollab source model r c T) d bl)) t x y
    (by rw [hlen]; exact ht) hx hy
  rw [hlen] at h
  exact h

theorem claim3_roundtrip_witness :
    (concatFrames 2 2 (diskArrays (runPipeline
        (pureCollab (fun t _ _ => (t:ℚ)) (fun a => a) 2 2 3) [] 2))).length = 3 ∧
    ∀ t x y, t < 3 → x < 2 → y < 2 →
      ndGet (readBack 2 2 3 (materialize 2 2 (diskArrays (runPipeline
          (pureCollab (fun t _ _ => (t:ℚ)) (fun a => a) 2 2 3) [] 2)))) [t, x, y]
        = ((concatFrames 2 2 (diskArrays (runPipeline
            (pureCollab (fun t _ _ => (t:ℚ)) (fun a => a) 2 2 3) [] 2))).getD
            t []).getD (x * 2 + y) 0 :=
  claim3_roundtrip (fun t _ _ => (t:ℚ)) (fun a => a) 2 2 3 2 []
    (fun _ => rfl) (by omega) (by omega) (by omega)
